import Mathlib

/-!
Verification of the spiral-matrix repository (`src/spir.py`).

The embedding models the two core components:

* `Spir.SpiralTraverser.traverse` — the counter-clockwise boundary-shrinking
  spiral traversal (`SpiralTraverser.traverse` in the source).  Matrix
  indexing is total: `Spir.getCell` returns `Option ℤ` and yields `none`
  out of bounds, matching a total embedding of Python list indexing.
  The `while` loop is embedded with explicit fuel; `m.length` units of
  fuel are enough, as proved below.
* `Spir.MatrixParser.parse_matrix` — the bordered-grid text parser
  (`MatrixParser.parse_matrix` in the source), returning
  `Except ParseErr` where the Python code raises `ValueError`.
-/

namespace Spir

/-- Ascending list of integers `a, a + 1, …, b`; Python `range(a, b + 1)`. -/
def intRange (a b : ℤ) : List ℤ :=
  (List.range (b + 1 - a).toNat).map (fun (k : ℕ) => a + (k : ℤ))

/-- Total embedding of `matrix[i][j]` for non-negative indices: `none` when a
coordinate is negative or out of range. -/
def getCell (m : List (List ℤ)) (i j : ℤ) : Option ℤ :=
  if 0 ≤ i ∧ 0 ≤ j then (m[i.toNat]?).bind (fun row => row[j.toNat]?) else none

/-- The index pairs `(row, column)` visited by the spiral loop of
`SpiralTraverser.traverse`, starting from bounds `top = t`, `bottom = b`,
`left = l`, `right = r`, with explicit fuel for the `while` loop. -/
def spiralIdx : ℕ → ℤ → ℤ → ℤ → ℤ → List (ℤ × ℤ)
  | 0, _, _, _, _ => []
  | fuel + 1, t, b, l, r =>
    if t ≤ b ∧ l ≤ r then
      ((intRange t b).map (fun i => (i, l)))
      ++ ((intRange (l + 1) r).map (fun j => (b, j)))
      ++ (if l + 1 ≤ r then (intRange t (b - 1)).reverse.map (fun i => (i, r)) else [])
      ++ (if t ≤ b - 1 then
            (intRange (l + 1) (if l + 1 ≤ r then r - 1 else r)).reverse.map
              (fun j => (t, j))
          else [])
      ++ spiralIdx fuel (if t ≤ b - 1 then t + 1 else t) (b - 1) (l + 1)
           (if l + 1 ≤ r then r - 1 else r)
    else []

/-- The `while` loop of `SpiralTraverser.traverse`: phase 1 walks down the left
column (then `left` is incremented), phase 2 right along the bottom row (then
`bottom` is decremented), phase 3 (only when `left ≤ right` still holds) up the
right column (then `right` is decremented), phase 4 (only when `top ≤ bottom`
still holds) left along the top row (then `top` is incremented). -/
def traverseAux (m : List (List ℤ)) : ℕ → ℤ → ℤ → ℤ → ℤ → List (Option ℤ)
  | 0, _, _, _, _ => []
  | fuel + 1, t, b, l, r =>
    if t ≤ b ∧ l ≤ r then
      ((intRange t b).map (fun i => getCell m i l))
      ++ ((intRange (l + 1) r).map (fun j => getCell m b j))
      ++ (if l + 1 ≤ r then (intRange t (b - 1)).reverse.map (fun i => getCell m i r)
          else [])
      ++ (if t ≤ b - 1 then
            (intRange (l + 1) (if l + 1 ≤ r then r - 1 else r)).reverse.map
              (fun j => getCell m t j)
          else [])
      ++ traverseAux m fuel (if t ≤ b - 1 then t + 1 else t) (b - 1) (l + 1)
           (if l + 1 ≤ r then r - 1 else r)
    else []

namespace SpiralTraverser

/-- `SpiralTraverser.traverse`: counter-clockwise spiral traversal of a square
matrix.  Empty input short-circuits to `[]`; otherwise the bounds start at
`top = left = 0`, `bottom = right = n - 1`.  Each read is an `Option ℤ`. -/
def traverse (m : List (List ℤ)) : List (Option ℤ) :=
  if m.length = 0 then []
  else traverseAux m m.length 0 ((m.length : ℤ) - 1) 0 ((m.length : ℤ) - 1)

end SpiralTraverser

/-- The matrix is square: every row has as many entries as there are rows. -/
def Square (m : List (List ℤ)) : Prop := ∀ r ∈ m, r.length = m.length

instance (m : List (List ℤ)) : Decidable (Square m) := by
  unfold Square
  infer_instance

/-- Characters stripped by Python `str.strip()` (ASCII whitespace). -/
def isSpaceChar (c : Char) : Bool :=
  c = ' ' || c = '\t' || c = '\r' || c = '\n' || c = '\x0b' || c = '\x0c'

/-- Drop the longest suffix whose characters satisfy `p`. -/
def dropTrailing (p : Char → Bool) (s : List Char) : List Char :=
  (s.reverse.dropWhile p).reverse

/-- Python `str.strip(chars)`: drop matching characters from both ends. -/
def stripBy (p : Char → Bool) (s : List Char) : List Char :=
  dropTrailing p (s.dropWhile p)

/-- Python `str.split(sep)` for a one-character separator: splitting the empty
string gives `[""]`. -/
def splitOnChar (sep : Char) : List Char → List (List Char)
  | [] => [[]]
  | c :: cs =>
    if c = sep then [] :: splitOnChar sep cs
    else
      match splitOnChar sep cs with
      | [] => [[c]]
      | h :: t => (c :: h) :: t

/-- Value of a decimal digit character, `none` for a non-digit. -/
def digitVal (c : Char) : Option ℕ :=
  if '0' ≤ c ∧ c ≤ '9' then some (c.toNat - '0'.toNat) else none

/-- Accumulate the decimal value of a digit string; `none` on a non-digit. -/
def decDigits : ℕ → List Char → Option ℕ
  | acc, [] => some acc
  | acc, c :: cs =>
    match digitVal c with
    | some d => decDigits (acc * 10 + d) cs
    | none => none

/-- Python `int(s)` on an already-stripped string: an optional leading sign
followed by at least one decimal digit; `none` when `s` is not such a
numeral. -/
def parseInt (s : List Char) : Option ℤ :=
  match s with
  | [] => none
  | '+' :: rest =>
    if rest = [] then none else (decDigits 0 rest).map (fun n => (n : ℤ))
  | '-' :: rest =>
    if rest = [] then none else (decDigits 0 rest).map (fun n => -(n : ℤ))
  | _ => (decDigits 0 s).map (fun n => (n : ℤ))

/-- The ways `MatrixParser.parse_matrix` fails (Python `ValueError`):
`parseError` carries the whitespace-stripped field text handed to `int`;
`shapeError` carries the expected column count (the row count `n`) and the
column count of the offending row. -/
inductive ParseErr where
  | parseError (field : List Char) : ParseErr
  | shapeError (expected actual : ℕ) : ParseErr
deriving DecidableEq

namespace MatrixParser

/-- The inner field loop of `parse_matrix`: each field is stripped of
whitespace; empty fields are skipped; a non-numeral field raises. -/
def parseFields : List (List Char) → Except ParseErr (List ℤ)
  | [] => .ok []
  | f :: fs =>
    if stripBy isSpaceChar f = [] then parseFields fs
    else
      match parseInt (stripBy isSpaceChar f) with
      | some v =>
        match parseFields fs with
        | .ok row => .ok (v :: row)
        | .error e => .error e
      | none => .error (.parseError (stripBy isSpaceChar f))

/-- Parse one data line: strip the leading/trailing `|` characters, split on
`|`, then run the field loop. -/
def parseRow (line : List Char) : Except ParseErr (List ℤ) :=
  parseFields (splitOnChar '|' (stripBy (fun c => c = '|') line))

/-- The line loop of `parse_matrix`: strip each line; skip border lines
(starting with `+`); parse lines containing `|` and keep non-empty rows; skip
everything else. -/
def collectRows : List (List Char) → Except ParseErr (List (List ℤ))
  | [] => .ok []
  | line :: rest =>
    if (stripBy isSpaceChar line).head? = some '+' then collectRows rest
    else if '|' ∈ stripBy isSpaceChar line then
      match parseRow (stripBy isSpaceChar line) with
      | .error e => .error e
      | .ok row =>
        match collectRows rest with
        | .error e => .error e
        | .ok rows => .ok (if row = [] then rows else row :: rows)
    else collectRows rest

/-- The squareness check at the end of `parse_matrix` (skipped when no rows
were collected): the first row whose length differs from the row count `n`
raises a shape error naming `n` and that row's length. -/
def checkSquare (rows : List (List ℤ)) : Except ParseErr (List (List ℤ)) :=
  if rows.isEmpty then .ok rows
  else
    match rows.find? (fun r => r.length != rows.length) with
    | some r => .error (.shapeError rows.length r.length)
    | none => .ok rows

/-- `MatrixParser.parse_matrix`: strip the text, split it into lines, collect
the data rows, then check squareness. -/
def parse_matrix (text : List Char) : Except ParseErr (List (List ℤ)) :=
  match collectRows (splitOnChar '\n' (stripBy isSpaceChar text)) with
  | .error e => .error e
  | .ok rows => checkSquare rows

end MatrixParser

/-- Row-major enumeration of the index rectangle `[t..b] × [l..r]`. -/
def rect (t b l r : ℤ) : List (ℤ × ℤ) :=
  (intRange t b).flatMap (fun i => (intRange l r).map (fun j => (i, j)))

theorem length_intRange (a b : ℤ) : (intRange a b).length = (b + 1 - a).toNat := by
  simp [intRange]

theorem mem_intRange {x a b : ℤ} : x ∈ intRange a b ↔ a ≤ x ∧ x ≤ b := by
  constructor
  · intro hx
    simp only [intRange, List.mem_map, List.mem_range] at hx
    obtain ⟨k, hk, rfl⟩ := hx
    omega
  · intro hx
    simp only [intRange, List.mem_map, List.mem_range]
    exact ⟨(x - a).toNat, by omega, by omega⟩

theorem nodup_intRange (a b : ℤ) : (intRange a b).Nodup :=
  List.Nodup.map (fun x y hxy => by omega) (List.nodup_range _)

theorem count_intRange (x a b : ℤ) :
    (intRange a b).count x = if a ≤ x ∧ x ≤ b then 1 else 0 := by
  by_cases h : a ≤ x ∧ x ≤ b
  · rw [if_pos h]
    exact List.count_eq_one_of_mem (nodup_intRange a b) (mem_intRange.mpr h)
  · rw [if_neg h]
    exact List.count_eq_zero_of_not_mem (fun hm => h (mem_intRange.mp hm))

theorem intRange_eq_cons {a b : ℤ} (h : a ≤ b) :
    intRange a b = a :: intRange (a + 1) b := by
  unfold intRange
  rw [show (b + 1 - a).toNat = (b + 1 - (a + 1)).toNat + 1 by omega,
    List.range_succ_eq_map, List.map_cons, List.map_map]
  refine congrArg₂ _ (by simp) (List.map_congr_left (fun x _ => ?_))
  simp only [Function.comp_apply]
  omega

theorem count_pair_left (s : List ℤ) (c : ℤ) (p : ℤ × ℤ) :
    (s.map (fun i => (i, c))).count p = if p.2 = c then s.count p.1 else 0 := by
  rcases p with ⟨p1, p2⟩
  induction s with
  | nil => simp
  | cons x xs ih =>
    simp only [List.map_cons, List.count_cons, ih, beq_iff_eq, Prod.mk.injEq]
    split_ifs <;> omega

theorem count_pair_right (s : List ℤ) (c : ℤ) (p : ℤ × ℤ) :
    (s.map (fun j => (c, j))).count p = if p.1 = c then s.count p.2 else 0 := by
  rcases p with ⟨p1, p2⟩
  induction s with
  | nil => simp
  | cons x xs ih =>
    simp only [List.map_cons, List.count_cons, ih, beq_iff_eq, Prod.mk.injEq]
    split_ifs <;> omega

theorem getCell_eq_some {m : List (List ℤ)} (hsq : Square m) {i j : ℤ}
    (hi0 : 0 ≤ i) (hi : i < (m.length : ℤ)) (hj0 : 0 ≤ j) (hj : j < (m.length : ℤ)) :
    ∃ v, getCell m i j = some v := by
  have hi' : i.toNat < m.length := by omega
  have hrow : m[i.toNat]? = some m[i.toNat] := List.getElem?_eq_getElem hi'
  have hlen : m[i.toNat].length = m.length := hsq _ (List.getElem_mem hi')
  have hj' : j.toNat < m[i.toNat].length := by omega
  refine ⟨m[i.toNat][j.toNat], ?_⟩
  simp [getCell, hi0, hj0, hrow, List.getElem?_eq_getElem hj']

theorem count_spiralIdx :
    ∀ (fuel : ℕ) (t b l r : ℤ), (b + 1 - t).toNat ≤ fuel → ∀ p : ℤ × ℤ,
      (spiralIdx fuel t b l r).count p
        = if t ≤ p.1 ∧ p.1 ≤ b ∧ l ≤ p.2 ∧ p.2 ≤ r then 1 else 0 := by
  intro fuel
  induction fuel with
  | zero =>
    intro t b l r hf p
    rw [if_neg (by omega)]
    rfl
  | succ n ih =>
    intro t b l r hf p
    by_cases hg : t ≤ b ∧ l ≤ r
    · by_cases h3 : l + 1 ≤ r <;> by_cases h4 : t ≤ b - 1 <;>
        simp only [spiralIdx, if_pos hg, if_pos, if_neg, h3, h4, if_true, if_false,
          List.count_append, count_pair_left, count_pair_right, List.count_reverse,
          count_intRange, List.count_nil, ite_true, ite_false] <;>
        rw [ih _ _ _ _ (by omega)] <;>
        split_ifs <;> omega
    · simp only [spiralIdx, if_neg hg, List.count_nil]
      rw [if_neg (by omega)]

theorem count_flatMap_row (s : List ℤ) (c d : ℤ) (p : ℤ × ℤ) :
    (s.flatMap (fun i => (intRange c d).map (fun j => (i, j)))).count p
      = if c ≤ p.2 ∧ p.2 ≤ d then s.count p.1 else 0 := by
  induction s with
  | nil => simp
  | cons x xs ih =>
    simp only [List.flatMap_cons, List.count_append, ih, count_pair_right,
      count_intRange, List.count_cons, beq_iff_eq]
    split_ifs <;> omega

theorem count_rect (t b l r : ℤ) (p : ℤ × ℤ) :
    (rect t b l r).count p
      = if t ≤ p.1 ∧ p.1 ≤ b ∧ l ≤ p.2 ∧ p.2 ≤ r then 1 else 0 := by
  rw [rect, count_flatMap_row, count_intRange]
  split_ifs <;> omega

/-- The two `BEq (ℤ × ℤ)` instances in scope give the same `count`. -/
theorem countDE (p : ℤ × ℤ) (l : List (ℤ × ℤ)) :
    @List.count (ℤ × ℤ) instBEqOfDecidableEq p l = l.count p := by
  rw [@List.count_eq_countP _ instBEqOfDecidableEq, List.count_eq_countP]
  refine List.countP_congr (fun a _ => ?_)
  show decide (a = p) = true ↔ (a == p) = true
  simp

/-- The spiral loop visits exactly the rectangle `[t..b] × [l..r]`, each cell
once, provided the fuel covers the loop's iterations. -/
theorem spiralIdx_perm_rect (fuel : ℕ) (t b l r : ℤ)
    (hf : (b + 1 - t).toNat ≤ fuel) :
    List.Perm (spiralIdx fuel t b l r) (rect t b l r) :=
  List.perm_iff_count.mpr (fun p => by
    rw [countDE, countDE, count_spiralIdx fuel t b l r hf p, count_rect])

theorem mem_spiralIdx {fuel : ℕ} {t b l r : ℤ} (hf : (b + 1 - t).toNat ≤ fuel)
    {p : ℤ × ℤ} :
    p ∈ spiralIdx fuel t b l r ↔ t ≤ p.1 ∧ p.1 ≤ b ∧ l ≤ p.2 ∧ p.2 ≤ r := by
  rw [← List.count_pos_iff, count_spiralIdx fuel t b l r hf p]
  split_ifs with h <;> simp [h]

/-- Fuel beyond the loop's iteration count does not change the spiral: the
`while` loop of the source terminates within `bottom - top + 1` iterations. -/
theorem spiralIdx_fuel_stable :
    ∀ (f1 : ℕ) (t b l r : ℤ) (f2 : ℕ), (b + 1 - t).toNat ≤ f1 →
      (b + 1 - t).toNat ≤ f2 → spiralIdx f1 t b l r = spiralIdx f2 t b l r := by
  intro f1
  induction f1 with
  | zero =>
    intro t b l r f2 h1 h2
    cases f2 with
    | zero => rfl
    | succ n => simp only [spiralIdx]; rw [if_neg (by omega)]
  | succ n ih =>
    intro t b l r f2 h1 h2
    cases f2 with
    | zero => simp only [spiralIdx]; rw [if_neg (by omega)]
    | succ k =>
      simp only [spiralIdx]
      by_cases hg : t ≤ b ∧ l ≤ r
      · rw [if_pos hg, if_pos hg, ih _ _ _ _ k (by omega) (by omega)]
      · rw [if_neg hg, if_neg hg]

/-- The value-level loop is the index-level loop read through `getCell`. -/
theorem traverseAux_eq_map (m : List (List ℤ)) :
    ∀ (fuel : ℕ) (t b l r : ℤ),
      traverseAux m fuel t b l r
        = (spiralIdx fuel t b l r).map (fun p => getCell m p.1 p.2) := by
  intro fuel
  induction fuel with
  | zero => intro t b l r; rfl
  | succ n ih =>
    intro t b l r
    by_cases hg : t ≤ b ∧ l ≤ r
    · simp only [traverseAux, spiralIdx, if_pos hg, List.map_append,
        apply_ite (List.map (fun p : ℤ × ℤ => getCell m p.1 p.2)), List.map_nil,
        List.map_map, List.map_reverse, ih]
      rfl
    · simp only [traverseAux, spiralIdx, if_neg hg, List.map_nil]

theorem map_range_getElem (xs : List ℤ) :
    (List.range xs.length).map (fun k => xs[k]?) = xs.map some := by
  induction xs with
  | nil => rfl
  | cons x xs ih =>
    have h1 : ∀ k ∈ List.range xs.length,
        ((fun k => (x :: xs)[k]?) ∘ Nat.succ) k = xs[k]? := by
      intro k hk
      simp
    rw [List.length_cons, List.range_succ_eq_map, List.map_cons, List.map_map,
      List.map_congr_left h1, ih]
    simp

theorem intRange_zero_eq (n : ℕ) :
    intRange 0 ((n : ℤ) - 1) = (List.range n).map (fun (k : ℕ) => (k : ℤ)) := by
  unfold intRange
  rw [show ((n : ℤ) - 1 + 1 - 0).toNat = n by omega]
  exact List.map_congr_left (fun x _ => by omega)

theorem flatMap_congr_mem {α β : Type} (s : List α) (f g : α → List β)
    (h : ∀ a ∈ s, f a = g a) : s.flatMap f = s.flatMap g := by
  induction s with
  | nil => rfl
  | cons x xs ih =>
    simp only [List.flatMap_cons]
    rw [h x (by simp), ih (fun a ha => h a (by simp [ha]))]

theorem flatten_eq_flatMap_range (m : List (List ℤ)) :
    (List.range m.length).flatMap (fun a => m.getD a []) = m.flatten := by
  induction m with
  | nil => rfl
  | cons x xs ih =>
    rw [List.length_cons, List.range_succ_eq_map, List.flatMap_cons,
      List.flatMap_map]
    simp only [List.getD_cons_zero, List.getD_cons_succ, List.flatten_cons]
    rw [ih]

/-- Reading the row-major rectangle of a square matrix through `getCell` gives
the flattened matrix. -/
theorem rect_map_getCell {m : List (List ℤ)} (hsq : Square m) :
    (rect 0 ((m.length : ℤ) - 1) 0 ((m.length : ℤ) - 1)).map
        (fun p => getCell m p.1 p.2)
      = m.flatten.map some := by
  rw [rect, intRange_zero_eq, List.map_flatMap, List.flatMap_map]
  have hinner : ∀ a ∈ List.range m.length,
      (((List.range m.length).map (fun (k : ℕ) => (k : ℤ))).map
          (fun j => ((a : ℤ), j))).map (fun p : ℤ × ℤ => getCell m p.1 p.2)
        = (m.getD a []).map some := by
    intro a ha
    have ha' : a < m.length := List.mem_range.mp ha
    have hrow : m[a]? = some m[a] := List.getElem?_eq_getElem ha'
    have hlen : m[a].length = m.length := hsq _ (List.getElem_mem ha')
    have hcell : ∀ k ∈ List.range m.length,
        getCell m ((a : ℕ) : ℤ) ((k : ℕ) : ℤ) = m[a][k]? := by
      intro k hk
      simp only [getCell, if_pos (by omega : (0 : ℤ) ≤ (a : ℤ) ∧ 0 ≤ ((k : ℕ) : ℤ))]
      rw [show ((a : ℤ)).toNat = a by omega, show (((k : ℕ) : ℤ)).toNat = k by omega,
        hrow]
      rfl
    simp only [List.map_map, Function.comp_def]
    rw [List.map_congr_left hcell]
    rw [show m.getD a [] = m[a] from List.getD_eq_getElem m [] ha']
    rw [show List.range m.length = List.range m[a].length by rw [hlen]]
    exact map_range_getElem m[a]
  rw [flatMap_congr_mem _ _ _ hinner, ← List.map_flatMap, flatten_eq_flatMap_range]

/-- C1 (counterexample): on the 3×3 matrix `[[1,2,3],[8,9,4],[7,6,5]]` the
traversal does NOT return `[1,8,7,6,5,4,9,2,3]` as the claim states. -/
theorem claim1_traverse_3x3_counterexample :
    SpiralTraverser.traverse [[1, 2, 3], [8, 9, 4], [7, 6, 5]]
      ≠ [1, 8, 7, 6, 5, 4, 9, 2, 3].map some := by decide

/-- C1 (amended): on the 3×3 matrix `[[1,2,3],[8,9,4],[7,6,5]]` the traversal
returns exactly `[1,8,7,6,5,4,3,2,9]`: down the left edge (1,8,7), right along
the bottom (6,5), up the right edge (4,3), left along the top (2), then the
center cell 9 on the second pass. -/
theorem claim1_traverse_3x3 :
    SpiralTraverser.traverse [[1, 2, 3], [8, 9, 4], [7, 6, 5]]
      = [1, 8, 7, 6, 5, 4, 3, 2, 9].map some := by decide

/-- C2 (counterexample): on the 2×2 matrix `[[1,2],[4,3]]` the traversal does
NOT return `[4,3,2,1]` as the claim states. -/
theorem claim2_traverse_2x2_counterexample :
    SpiralTraverser.traverse [[1, 2], [4, 3]] ≠ [4, 3, 2, 1].map some := by
  decide

/-- C2 (amended): on the 2×2 matrix `[[1,2],[4,3]]` the traversal returns
exactly `[1,4,3,2]`: down the left column (1,4), right along the bottom row
(3), then up the right column (2). -/
theorem claim2_traverse_2x2 :
    SpiralTraverser.traverse [[1, 2], [4, 3]] = [1, 4, 3, 2].map some := by
  decide

/-- C3: for every non-empty square matrix the traversal starts at the top-left
cell and, when the dimension is at least 2, continues downward to the cell at
row 1, column 0 — the counter-clockwise start, not the clockwise one. -/
theorem claim3_starts_down_left_column (m : List (List ℤ)) (hsq : Square m)
    (hlen : 1 ≤ m.length) :
    (∃ v, getCell m 0 0 = some v
      ∧ (SpiralTraverser.traverse m)[0]? = some (some v)) ∧
    (2 ≤ m.length →
      ∃ w, getCell m 1 0 = some w
        ∧ (SpiralTraverser.traverse m)[1]? = some (some w)) := by
  have hn0 : ¬ m.length = 0 := by omega
  obtain ⟨k, hk⟩ : ∃ k, m.length = k + 1 := ⟨m.length - 1, by omega⟩
  have htrav : SpiralTraverser.traverse m
      = (spiralIdx m.length 0 ((m.length : ℤ) - 1) 0
          ((m.length : ℤ) - 1)).map (fun p : ℤ × ℤ => getCell m p.1 p.2) := by
    rw [SpiralTraverser.traverse, if_neg hn0, traverseAux_eq_map]
  have hs : spiralIdx m.length 0 ((m.length : ℤ) - 1) 0 ((m.length : ℤ) - 1)
      = spiralIdx (k + 1) 0 ((m.length : ℤ) - 1) 0 ((m.length : ℤ) - 1) := by
    rw [hk]
  have h0 : (spiralIdx (k + 1) 0 ((m.length : ℤ) - 1) 0
      ((m.length : ℤ) - 1))[0]? = some ((0 : ℤ), (0 : ℤ)) := by
    simp only [spiralIdx]
    rw [if_pos ⟨by omega, by omega⟩,
      intRange_eq_cons (by omega : (0 : ℤ) ≤ (m.length : ℤ) - 1)]
    simp only [List.map_cons, List.cons_append, List.getElem?_cons_zero]
  obtain ⟨v, hv⟩ := getCell_eq_some hsq (by omega) (by omega : (0 : ℤ) < m.length)
    (by omega) (by omega : (0 : ℤ) < m.length)
  refine ⟨⟨v, hv, ?_⟩, fun h2 => ?_⟩
  · rw [htrav, List.getElem?_map, hs, h0]
    simp [hv]
  · have h1 : (spiralIdx (k + 1) 0 ((m.length : ℤ) - 1) 0
        ((m.length : ℤ) - 1))[1]? = some ((1 : ℤ), (0 : ℤ)) := by
      simp only [spiralIdx]
      rw [if_pos ⟨by omega, by omega⟩,
        intRange_eq_cons (by omega : (0 : ℤ) ≤ (m.length : ℤ) - 1),
        show (0 : ℤ) + 1 = 1 by norm_num,
        intRange_eq_cons (by omega : (1 : ℤ) ≤ (m.length : ℤ) - 1)]
      simp only [List.map_cons, List.cons_append, List.getElem?_cons_succ,
        List.getElem?_cons_zero]
    obtain ⟨w, hw⟩ := getCell_eq_some hsq (by omega)
      (by omega : (1 : ℤ) < m.length) (by omega) (by omega : (0 : ℤ) < m.length)
    refine ⟨w, hw, ?_⟩
    rw [htrav, List.getElem?_map, hs, h1]
    simp [hw]

/-- C3 (witness): the two leading elements on the 3×3 example. -/
theorem claim3_witness :
    (∃ v, getCell [[1, 2, 3], [8, 9, 4], [7, 6, 5]] 0 0 = some v
      ∧ (SpiralTraverser.traverse [[1, 2, 3], [8, 9, 4], [7, 6, 5]])[0]?
          = some (some v)) ∧
    (2 ≤ ([[1, 2, 3], [8, 9, 4], [7, 6, 5]] : List (List ℤ)).length →
      ∃ w, getCell [[1, 2, 3], [8, 9, 4], [7, 6, 5]] 1 0 = some w
        ∧ (SpiralTraverser.traverse [[1, 2, 3], [8, 9, 4], [7, 6, 5]])[1]?
            = some (some w)) :=
  claim3_starts_down_left_column [[1, 2, 3], [8, 9, 4], [7, 6, 5]]
    (by decide) (by decide)

/-- C4: on a square matrix of dimension `n` the traversal returns exactly
`n * n` entries and visits every cell exactly once: the output is a
permutation of the flattened matrix.  The last conjunct shows the loop
terminates within `n` iterations: any fuel of at least `n` yields the same
output. -/
theorem claim4_traverse_permutation (m : List (List ℤ)) (hsq : Square m) :
    (SpiralTraverser.traverse m).length = m.length * m.length ∧
    List.Perm (SpiralTraverser.traverse m) (m.flatten.map some) ∧
    (∀ fuel, m.length ≤ fuel →
      traverseAux m fuel 0 ((m.length : ℤ) - 1) 0 ((m.length : ℤ) - 1)
        = traverseAux m m.length 0 ((m.length : ℤ) - 1) 0 ((m.length : ℤ) - 1)) := by
  have hperm : List.Perm (SpiralTraverser.traverse m) (m.flatten.map some) := by
    rw [SpiralTraverser.traverse]
    by_cases hn : m.length = 0
    · rw [if_pos hn]
      have hnil : m = [] := List.length_eq_zero.mp hn
      subst hnil
      simp
    · rw [if_neg hn, traverseAux_eq_map]
      have hf : (((m.length : ℤ) - 1) + 1 - 0).toNat ≤ m.length := by omega
      have h1 := (spiralIdx_perm_rect m.length 0 ((m.length : ℤ) - 1) 0
        ((m.length : ℤ) - 1) hf).map (fun p : ℤ × ℤ => getCell m p.1 p.2)
      rwa [rect_map_getCell hsq] at h1
  refine ⟨?_, hperm, fun fuel hfuel => ?_⟩
  · rw [hperm.length_eq, List.length_map, List.length_flatten]
    have hrep : m.map List.length = List.replicate m.length m.length := by
      refine List.eq_replicate_iff.mpr ⟨by simp, fun b hb => ?_⟩
      rw [List.mem_map] at hb
      obtain ⟨r, hr, rfl⟩ := hb
      exact hsq r hr
    rw [hrep, List.sum_replicate, smul_eq_mul]
  · rw [traverseAux_eq_map, traverseAux_eq_map,
      spiralIdx_fuel_stable fuel 0 ((m.length : ℤ) - 1) 0 ((m.length : ℤ) - 1)
        m.length (by omega) (by omega)]

/-- C4 (witness): the permutation facts on the 2×2 example, with the
fuel-stability conjunct instantiated at fuel 5. -/
theorem claim4_witness :
    (SpiralTraverser.traverse [[1, 2], [4, 3]]).length
        = ([[1, 2], [4, 3]] : List (List ℤ)).length
            * ([[1, 2], [4, 3]] : List (List ℤ)).length ∧
    List.Perm (SpiralTraverser.traverse [[1, 2], [4, 3]])
      (([[1, 2], [4, 3]] : List (List ℤ)).flatten.map some) ∧
    traverseAux [[1, 2], [4, 3]] 5 0
        ((([[1, 2], [4, 3]] : List (List ℤ)).length : ℤ) - 1) 0
        ((([[1, 2], [4, 3]] : List (List ℤ)).length : ℤ) - 1)
      = traverseAux [[1, 2], [4, 3]] ([[1, 2], [4, 3]] : List (List ℤ)).length 0
          ((([[1, 2], [4, 3]] : List (List ℤ)).length : ℤ) - 1) 0
          ((([[1, 2], [4, 3]] : List (List ℤ)).length : ℤ) - 1) := by
  have h := claim4_traverse_permutation [[1, 2], [4, 3]] (by decide)
  exact ⟨h.1, h.2.1, h.2.2 5 (by norm_num)⟩

/-- C10: on a square matrix every index pair the traversal reads is in
bounds — every entry of the output is `some`, so the `none` branch of the
total indexing embedding is unreachable. -/
theorem claim10_reads_in_bounds (m : List (List ℤ)) (hsq : Square m) :
    ∀ x ∈ SpiralTraverser.traverse m, x.isSome := by
  intro x hx
  rw [SpiralTraverser.traverse] at hx
  by_cases hn : m.length = 0
  · rw [if_pos hn] at hx
    simp at hx
  · rw [if_neg hn, traverseAux_eq_map, List.mem_map] at hx
    obtain ⟨p, hp, rfl⟩ := hx
    have hb := (mem_spiralIdx
      (by omega : ((((m.length : ℤ) - 1) + 1 - 0).toNat ≤ m.length))).mp hp
    obtain ⟨hb1, hb2, hb3, hb4⟩ := hb
    obtain ⟨v, hv⟩ := getCell_eq_some (i := p.1) (j := p.2) hsq (by omega)
      (by omega) (by omega) (by omega)
    rw [hv]
    rfl

/-- C10 (witness): the first read of the 2×2 traversal, an entry of the
output list, is `some`. -/
theorem claim10_witness : (Option.some (1 : ℤ)).isSome :=
  claim10_reads_in_bounds [[1, 2], [4, 3]] (by decide) (some 1) (by decide)

theorem parseFields_all_empty (fs : List (List Char))
    (h : ∀ f ∈ fs, stripBy isSpaceChar f = []) :
    MatrixParser.parseFields fs = .ok [] := by
  induction fs with
  | nil => rfl
  | cons f fs ih =>
    have hf := h f (by simp)
    simp only [MatrixParser.parseFields, if_pos hf]
    exact ih (fun a ha => h a (by simp [ha]))

theorem parseFields_error (fs : List (List Char)) :
    ∀ e : ParseErr, MatrixParser.parseFields fs = .error e →
    ∃ f ∈ fs, e = .parseError (stripBy isSpaceChar f)
      ∧ stripBy isSpaceChar f ≠ [] ∧ parseInt (stripBy isSpaceChar f) = none := by
  induction fs with
  | nil => exact fun e h => Except.noConfusion h
  | cons f fs ih =>
    intro e h
    by_cases hskip : stripBy isSpaceChar f = []
    · simp only [MatrixParser.parseFields] at h
      rw [if_pos hskip] at h
      obtain ⟨g, hg, hrest⟩ := ih e h
      exact ⟨g, by simp [hg], hrest⟩
    · simp only [MatrixParser.parseFields] at h
      rw [if_neg hskip] at h
      cases hp : parseInt (stripBy isSpaceChar f) with
      | some v =>
        rw [hp] at h
        cases hrec : MatrixParser.parseFields fs with
        | ok row =>
          rw [hrec] at h
          exact Except.noConfusion h
        | error e2 =>
          rw [hrec] at h
          injection h with h4
          obtain ⟨g, hg, h1, h2, h3⟩ := ih e2 hrec
          exact ⟨g, by simp [hg], by rw [← h4]; exact h1, h2, h3⟩
      | none =>
        rw [hp] at h
        injection h with h4
        exact ⟨f, by simp, h4.symm, hskip, hp⟩

theorem collectRows_error (lines : List (List Char)) :
    ∀ e : ParseErr, MatrixParser.collectRows lines = .error e →
    ∃ line ∈ lines, ¬ (stripBy isSpaceChar line).head? = some '+'
      ∧ '|' ∈ stripBy isSpaceChar line
      ∧ ∃ f ∈ splitOnChar '|' (stripBy (fun c => c = '|') (stripBy isSpaceChar line)),
          e = .parseError (stripBy isSpaceChar f)
            ∧ stripBy isSpaceChar f ≠ [] ∧ parseInt (stripBy isSpaceChar f) = none := by
  induction lines with
  | nil => exact fun e h => Except.noConfusion h
  | cons line rest ih =>
    intro e h
    by_cases hb : (stripBy isSpaceChar line).head? = some '+'
    · simp only [MatrixParser.collectRows] at h
      rw [if_pos hb] at h
      obtain ⟨g, hg, hrest⟩ := ih e h
      exact ⟨g, by simp [hg], hrest⟩
    · by_cases hd : '|' ∈ stripBy isSpaceChar line
      · simp only [MatrixParser.collectRows] at h
        rw [if_neg hb, if_pos hd] at h
        cases hrow : MatrixParser.parseRow (stripBy isSpaceChar line) with
        | error e2 =>
          rw [hrow] at h
          injection h with h4
          subst h4
          exact ⟨line, by simp, hb, hd, parseFields_error _ e2 hrow⟩
        | ok row =>
          rw [hrow] at h
          cases hrest : MatrixParser.collectRows rest with
          | error e2 =>
            rw [hrest] at h
            injection h with h4
            subst h4
            obtain ⟨g, hg, hrest2⟩ := ih e2 hrest
            exact ⟨g, by simp [hg], hrest2⟩
          | ok rows =>
            rw [hrest] at h
            exact Except.noConfusion h
      · simp only [MatrixParser.collectRows] at h
        rw [if_neg hb, if_neg hd] at h
        obtain ⟨g, hg, hrest⟩ := ih e h
        exact ⟨g, by simp [hg], hrest⟩

/-- C5: when the line loop collects no data rows, `parse_matrix` succeeds with
the empty matrix (the `n = 0` case is not an error), and the traversal of the
empty matrix is the empty sequence, without error. -/
theorem claim5_empty_matrix (text : List Char)
    (h : MatrixParser.collectRows (splitOnChar '\n' (stripBy isSpaceChar text))
      = .ok ([] : List (List ℤ))) :
    MatrixParser.parse_matrix text = .ok ([] : List (List ℤ))
      ∧ SpiralTraverser.traverse [] = ([] : List (Option ℤ)) := by
  refine ⟨?_, rfl⟩
  unfold MatrixParser.parse_matrix
  rw [h]
  rfl

/-- C5 (witness): a text of only border and blank lines parses to the empty
matrix. -/
theorem claim5_witness :
    MatrixParser.parse_matrix ("+---+\n\n".toList) = .ok ([] : List (List ℤ))
      ∧ SpiralTraverser.traverse [] = ([] : List (Option ℤ)) :=
  claim5_empty_matrix ("+---+\n\n".toList) rfl

/-- C6 (counterexample): on `"| 1 | x |\n| 2 | 3 |"` the parse error carries
the whitespace-trimmed field text `"x"`, not the raw field text `" x "`, and
the error value contains no line component. -/
theorem claim6_trimmed_field_counterexample :
    MatrixParser.parse_matrix ("| 1 | x |\n| 2 | 3 |".toList)
      = .error (.parseError ['x']) ∧ ['x'] ≠ " x ".toList :=
  ⟨rfl, by decide⟩

theorem parseFields_fails (fs : List (List Char)) (f : List Char)
    (hf : f ∈ fs) (hne : stripBy isSpaceChar f ≠ [])
    (hbad : parseInt (stripBy isSpaceChar f) = none) :
    ∃ e, MatrixParser.parseFields fs = .error e := by
  induction fs with
  | nil => exact absurd hf (List.not_mem_nil f)
  | cons g gs ih =>
    by_cases hskip : stripBy isSpaceChar g = []
    · have hfgs : f ∈ gs := by
        rcases List.mem_cons.mp hf with h | h
        · exact absurd (h ▸ hskip) hne
        · exact h
      obtain ⟨e, he⟩ := ih hfgs
      refine ⟨e, ?_⟩
      simp only [MatrixParser.parseFields]
      rw [if_pos hskip]
      exact he
    · cases hp : parseInt (stripBy isSpaceChar g) with
      | none =>
        refine ⟨.parseError (stripBy isSpaceChar g), ?_⟩
        simp only [MatrixParser.parseFields]
        rw [if_neg hskip, hp]
      | some v =>
        have hfgs : f ∈ gs := by
          rcases List.mem_cons.mp hf with h | h
          · subst h
            rw [hbad] at hp
            exact Option.noConfusion hp
          · exact h
        obtain ⟨e, he⟩ := ih hfgs
        refine ⟨e, ?_⟩
        simp only [MatrixParser.parseFields]
        rw [if_neg hskip, hp, he]

theorem collectRows_fails (lines : List (List Char)) (line f : List Char)
    (hline : line ∈ lines)
    (hborder : ¬ (stripBy isSpaceChar line).head? = some '+')
    (hdata : '|' ∈ stripBy isSpaceChar line)
    (hf : f ∈ splitOnChar '|' (stripBy (fun c => c = '|') (stripBy isSpaceChar line)))
    (hne : stripBy isSpaceChar f ≠ [])
    (hbad : parseInt (stripBy isSpaceChar f) = none) :
    ∃ e, MatrixParser.collectRows lines = .error e := by
  induction lines with
  | nil => exact absurd hline (List.not_mem_nil _)
  | cons L rest ih =>
    rcases List.mem_cons.mp hline with hL | hmem
    · subst hL
      obtain ⟨e, he⟩ := parseFields_fails _ f hf hne hbad
      refine ⟨e, ?_⟩
      simp only [MatrixParser.collectRows]
      rw [if_neg hborder, if_pos hdata,
        show MatrixParser.parseRow (stripBy isSpaceChar line)
            = MatrixParser.parseFields (splitOnChar '|'
                (stripBy (fun c => c = '|') (stripBy isSpaceChar line)))
          from rfl, he]
    · obtain ⟨e, he⟩ := ih hmem
      by_cases hb : (stripBy isSpaceChar L).head? = some '+'
      · refine ⟨e, ?_⟩
        simp only [MatrixParser.collectRows]
        rw [if_pos hb]
        exact he
      · by_cases hd : '|' ∈ stripBy isSpaceChar L
        · cases hrow : MatrixParser.parseRow (stripBy isSpaceChar L) with
          | error e2 =>
            refine ⟨e2, ?_⟩
            simp only [MatrixParser.collectRows]
            rw [if_neg hb, if_pos hd, hrow]
          | ok row =>
            refine ⟨e, ?_⟩
            simp only [MatrixParser.collectRows]
            rw [if_neg hb, if_pos hd, hrow, he]
        · refine ⟨e, ?_⟩
          simp only [MatrixParser.collectRows]
          rw [if_neg hb, if_neg hd]
          exact he

/-- C6 (amended): if some data line of the text (a line containing `|`, not a
border line) has a field whose whitespace-trimmed text is non-empty and is not
a decimal numeral, then `parse_matrix` fails — no matrix is returned — with a
parse error whose payload is the trimmed text of an offending field of a data
line (not the raw field text, and with no line component). -/
theorem claim6_parse_error_field (text line f : List Char)
    (hline : line ∈ splitOnChar '\n' (stripBy isSpaceChar text))
    (hborder : ¬ (stripBy isSpaceChar line).head? = some '+')
    (hdata : '|' ∈ stripBy isSpaceChar line)
    (hf : f ∈ splitOnChar '|' (stripBy (fun c => c = '|') (stripBy isSpaceChar line)))
    (hne : stripBy isSpaceChar f ≠ [])
    (hbad : parseInt (stripBy isSpaceChar f) = none) :
    ∃ line2 ∈ splitOnChar '\n' (stripBy isSpaceChar text),
      ¬ (stripBy isSpaceChar line2).head? = some '+'
        ∧ '|' ∈ stripBy isSpaceChar line2
        ∧ ∃ g ∈ splitOnChar '|'
            (stripBy (fun c => c = '|') (stripBy isSpaceChar line2)),
            MatrixParser.parse_matrix text
                = .error (.parseError (stripBy isSpaceChar g))
              ∧ stripBy isSpaceChar g ≠ []
              ∧ parseInt (stripBy isSpaceChar g) = none := by
  obtain ⟨e, he⟩ :=
    collectRows_fails _ line f hline hborder hdata hf hne hbad
  have hp : MatrixParser.parse_matrix text = .error e := by
    unfold MatrixParser.parse_matrix
    rw [he]
  obtain ⟨line2, hl2, hb2, hd2, g, hg, hge, hgne, hgbad⟩ :=
    collectRows_error _ e he
  exact ⟨line2, hl2, hb2, hd2, g, hg, by rw [hp, hge], hgne, hgbad⟩

/-- C6 (witness): the amended statement on `"| 1 | x |\n| 2 | 3 |"`, whose
first data line has the non-numeral field `" x "`. -/
theorem claim6_witness :
    ∃ line2 ∈ splitOnChar '\n'
        (stripBy isSpaceChar ("| 1 | x |\n| 2 | 3 |".toList)),
      ¬ (stripBy isSpaceChar line2).head? = some '+'
        ∧ '|' ∈ stripBy isSpaceChar line2
        ∧ ∃ g ∈ splitOnChar '|'
            (stripBy (fun c => c = '|') (stripBy isSpaceChar line2)),
            MatrixParser.parse_matrix ("| 1 | x |\n| 2 | 3 |".toList)
                = .error (.parseError (stripBy isSpaceChar g))
              ∧ stripBy isSpaceChar g ≠ []
              ∧ parseInt (stripBy isSpaceChar g) = none :=
  claim6_parse_error_field ("| 1 | x |\n| 2 | 3 |".toList)
    ("| 1 | x |".toList) (" x ".toList) (by decide) (by decide) (by decide)
    (by decide) (by decide) (by decide)

/-- C7: if the collected rows contain a row whose length differs from the row
count, `parse_matrix` fails with a shape error carrying the row count as the
expected column count and the offending row's length as the actual one, and
no matrix is returned. -/
theorem claim7_shape_error (text : List Char) (rows : List (List ℤ))
    (r0 : List ℤ)
    (hc : MatrixParser.collectRows (splitOnChar '\n' (stripBy isSpaceChar text))
      = .ok rows)
    (hr : r0 ∈ rows) (hne : r0.length ≠ rows.length) :
    ∃ bad ∈ rows, bad.length ≠ rows.length
      ∧ MatrixParser.parse_matrix text
          = .error (.shapeError rows.length bad.length) := by
  have hsome : (rows.find? (fun r => r.length != rows.length)).isSome :=
    List.find?_isSome.mpr ⟨r0, hr, by simp [hne]⟩
  obtain ⟨bad, hfind⟩ := Option.isSome_iff_exists.mp hsome
  have hbadmem := List.mem_of_find?_eq_some hfind
  have hbadp : bad.length ≠ rows.length := by
    simpa using List.find?_some hfind
  refine ⟨bad, hbadmem, hbadp, ?_⟩
  unfold MatrixParser.parse_matrix
  rw [hc]
  show MatrixParser.checkSquare rows = _
  unfold MatrixParser.checkSquare
  rw [if_neg (by simp [List.isEmpty_iff, List.ne_nil_of_mem hr]), hfind]

/-- C7 (witness): two rows of three fields each trigger the shape error with
expected 2 and actual 3. -/
theorem claim7_witness :
    ∃ bad ∈ ([[1, 2, 3], [4, 5, 6]] : List (List ℤ)),
      bad.length ≠ ([[1, 2, 3], [4, 5, 6]] : List (List ℤ)).length
      ∧ MatrixParser.parse_matrix ("|1|2|3|\n|4|5|6|".toList)
          = .error (.shapeError ([[1, 2, 3], [4, 5, 6]] : List (List ℤ)).length
              bad.length) :=
  claim7_shape_error ("|1|2|3|\n|4|5|6|".toList) [[1, 2, 3], [4, 5, 6]]
    [1, 2, 3] rfl (by decide) (by decide)

/-- C8 (counterexample): on `"|1|2|3|\n|4|5|6|"` the collected rows are
`[[1,2,3],[4,5,6]]`, the first row's width is 3, yet the shape error names 2 —
the row count — as the expected column count, not the first-row width. -/
theorem claim8_expected_counterexample :
    MatrixParser.parse_matrix ("|1|2|3|\n|4|5|6|".toList)
        = .error (.shapeError 2 3)
      ∧ MatrixParser.collectRows (splitOnChar '\n'
            (stripBy isSpaceChar ("|1|2|3|\n|4|5|6|".toList)))
          = .ok ([[1, 2, 3], [4, 5, 6]] : List (List ℤ))
      ∧ (([[1, 2, 3], [4, 5, 6]] : List (List ℤ)).head?.map List.length
          = some 3)
      ∧ (2 : ℕ) ≠ 3 :=
  ⟨rfl, rfl, rfl, by decide⟩

/-- C8 (amended): the shape error names the number of retained rows as the
expected column count and the length of the first offending row (the first
row whose length differs from the row count) as the actual one. -/
theorem claim8_expected_is_row_count (text : List Char)
    (rows : List (List ℤ)) (bad : List ℤ)
    (hc : MatrixParser.collectRows (splitOnChar '\n' (stripBy isSpaceChar text))
      = .ok rows)
    (hfind : rows.find? (fun r => r.length != rows.length) = some bad) :
    MatrixParser.parse_matrix text
      = .error (.shapeError rows.length bad.length) := by
  unfold MatrixParser.parse_matrix
  rw [hc]
  show MatrixParser.checkSquare rows = _
  unfold MatrixParser.checkSquare
  rw [if_neg (by
    simp [List.isEmpty_iff, List.ne_nil_of_mem (List.mem_of_find?_eq_some hfind)]),
    hfind]

/-- C8 (witness): the amended statement on `"|1|2|3|\n|4|5|6|"`. -/
theorem claim8_witness :
    MatrixParser.parse_matrix ("|1|2|3|\n|4|5|6|".toList)
      = .error (.shapeError 2 3) :=
  claim8_expected_is_row_count ("|1|2|3|\n|4|5|6|".toList)
    [[1, 2, 3], [4, 5, 6]] [1, 2, 3] rfl rfl

/-- C9: a data line (it contains `|`, does not start with `+`) whose fields
all trim to empty contributes no row: the line loop's result is unchanged. -/
theorem claim9_blank_data_line_discarded (line : List Char)
    (rest : List (List Char))
    (hborder : ¬ (stripBy isSpaceChar line).head? = some '+')
    (hdata : '|' ∈ stripBy isSpaceChar line)
    (hempty : ∀ f ∈ splitOnChar '|'
        (stripBy (fun c => c = '|') (stripBy isSpaceChar line)),
      stripBy isSpaceChar f = []) :
    MatrixParser.collectRows (line :: rest) = MatrixParser.collectRows rest := by
  have hrow : MatrixParser.parseRow (stripBy isSpaceChar line) = .ok [] :=
    parseFields_all_empty _ hempty
  simp only [MatrixParser.collectRows, if_neg hborder, if_pos hdata, hrow]
  cases hcr : MatrixParser.collectRows rest with
  | error e => rfl
  | ok rows => simp

/-- C9 (witness): the all-blank data line `"| | |"` is discarded. -/
theorem claim9_witness :
    MatrixParser.collectRows ["| | |".toList, "|1|".toList]
      = MatrixParser.collectRows ["|1|".toList] :=
  claim9_blank_data_line_discarded ("| | |".toList) ["|1|".toList]
    (by decide) (by decide) (by decide)

end Spir
